import Mathlib

/-!
Verification of the hyperbolic-tiling geometry core of the repository.

Points are complex numbers (the source class `Complex` with fields `x`, `y`
corresponds to `ℂ` with `re`, `im`).  Double-precision arithmetic is modelled
by exact real arithmetic; the source's numeric thresholds (`1e-12`) are kept
literally.  Source methods translate as follows:
`add/sub/mul/div` are the field operations of `ℂ`, `mulRe k` is `k • z`,
`divRe k` is `(1 / k) • z`, `getNorm` is `Complex.abs`, `normSq` is
`Complex.normSq`, `getNormalized` is defined below, `versor` and `root` are
defined below.
-/

noncomputable section

open Complex

/-- Source `versor(t)`: the unit complex number `cos t + i sin t`. -/
def versor (t : ℝ) : ℂ := ⟨Real.cos t, Real.sin t⟩

/-- Source `Complex.prototype.getNormalized`: `divRe(getNorm())`. -/
def getNormalized (z : ℂ) : ℂ := (1 / Complex.abs z) • z

/-- Source `Complex.prototype.root(n)`: the list of the `n` n-th roots
`r^(1/n) · versor((φ + 2kπ)/n)` for `k = 0, …, n-1`, where `r = |z|` and
`φ = atan2(y, x)` (which is `Complex.arg`). -/
def root (z : ℂ) (n : ℕ) : List ℂ :=
  (List.range n).map fun k =>
    ((Complex.abs z) ^ ((1 : ℝ) / n)) • versor ((Complex.arg z + 2 * k * Real.pi) / n)

/-- A circle as returned by `circleFrom3Points`: a center and a radius. -/
structure CircleR where
  center : ℂ
  radius : ℝ

/-- The determinant `A*D - B*C` that `circleFrom3Points` divides by
(the local variables `A`, `B`, `C`, `D` of the source). -/
def circleDet (p1 p2 p3 : ℂ) : ℝ :=
  (p1.re - p2.re) * (p1.im - p3.im) - (p1.im - p2.im) * (p1.re - p3.re)

/-- Source `circleFrom3Points(p1, p2, p3)`: solves the 2×2 linear system for
the circumcenter by Cramer's rule and returns the circle through the three
points.  Note: the source performs no determinant/collinearity check. -/
def circleFrom3Points (p1 p2 p3 : ℂ) : CircleR :=
  let A := p1.re - p2.re
  let B := p1.im - p2.im
  let C := p1.re - p3.re
  let D := p1.im - p3.im
  let E := (p1.re * p1.re - p2.re * p2.re + p1.im * p1.im - p2.im * p2.im) * 0.5
  let F := (p1.re * p1.re - p3.re * p3.re + p1.im * p1.im - p3.im * p3.im) * 0.5
  let det := A * D - B * C
  let center : ℂ := ⟨(D * E - B * F) / det, (-C * E + A * F) / det⟩
  { center := center, radius := Complex.abs (center - p1) }

/-- Source `circleCircleIntersections(c1, r1, c2, r2)`: intersection points of
two circles via the chord-midpoint plus perpendicular-offset construction. -/
def circleCircleIntersections (c1 : ℂ) (r1 : ℝ) (c2 : ℂ) (r2 : ℝ) : List ℂ :=
  let dVec := c2 - c1
  let d := Complex.abs dVec
  if d > r1 + r2 ∨ d < |r1 - r2| ∨ d < 1e-12 then [] else
  let x := (r1 * r1 - r2 * r2 + d * d) / (2 * d)
  let h2 := r1 * r1 - x * x
  let h2c := if h2 < 0 then 0 else h2
  let p := c1 + (x / d) • dVec
  let perp := getNormalized ⟨-dVec.im, dVec.re⟩
  let h := Real.sqrt h2c
  let i1 := p + h • perp
  let i2 := p - h • perp
  if h < 1e-12 then [i1] else [i1, i2]

/-- Source `isInsideTriangle(p, a, b, c)`: barycentric-coordinate test with a
degenerate-triangle guard. -/
def isInsideTriangle (p a b c : ℂ) : Bool :=
  let denominator := (b.im - c.im) * (a.re - c.re) + (c.re - b.re) * (a.im - c.im)
  if |denominator| < 1e-12 then false else
  let alpha := ((b.im - c.im) * (p.re - c.re) + (c.re - b.re) * (p.im - c.im)) / denominator
  let beta := ((c.im - a.im) * (p.re - c.re) + (a.re - c.re) * (p.im - c.im)) / denominator
  let gamma := 1 - alpha - beta
  decide (alpha ≥ 0 ∧ beta ≥ 0 ∧ gamma ≥ 0)

end

noncomputable section

/- Claim C6: the circle returned by circleFrom3Points passes through the three
generating points.  Helper computation at the level of squared norms. -/

theorem circleFrom3Points_center_normSq₂ (p1 p2 p3 : ℂ)
    (h : circleDet p1 p2 p3 ≠ 0) :
    Complex.normSq ((circleFrom3Points p1 p2 p3).center - p2) =
      Complex.normSq ((circleFrom3Points p1 p2 p3).center - p1) := by
  simp only [circleDet] at h
  simp only [circleFrom3Points, Complex.normSq_apply, Complex.sub_re, Complex.sub_im]
  field_simp
  ring

end

noncomputable section

theorem circleFrom3Points_center_normSq₃ (p1 p2 p3 : ℂ)
    (h : circleDet p1 p2 p3 ≠ 0) :
    Complex.normSq ((circleFrom3Points p1 p2 p3).center - p3) =
      Complex.normSq ((circleFrom3Points p1 p2 p3).center - p1) := by
  simp only [circleDet] at h
  simp only [circleFrom3Points, Complex.normSq_apply, Complex.sub_re, Complex.sub_im]
  field_simp
  ring

/-- Claim C6: for every non-collinear triple (nonzero determinant),
`circleFrom3Points` returns a center equidistant from the three points, the
returned radius being that common distance. -/
theorem circleFrom3Points_circumscribes (p1 p2 p3 : ℂ)
    (h : circleDet p1 p2 p3 ≠ 0) :
    Complex.abs ((circleFrom3Points p1 p2 p3).center - p1) =
        (circleFrom3Points p1 p2 p3).radius ∧
      Complex.abs ((circleFrom3Points p1 p2 p3).center - p2) =
        (circleFrom3Points p1 p2 p3).radius ∧
      Complex.abs ((circleFrom3Points p1 p2 p3).center - p3) =
        (circleFrom3Points p1 p2 p3).radius := by
  have hrad : (circleFrom3Points p1 p2 p3).radius =
      Complex.abs ((circleFrom3Points p1 p2 p3).center - p1) := rfl
  refine ⟨rfl, ?_, ?_⟩
  · have h2 := circleFrom3Points_center_normSq₂ p1 p2 p3 h
    rw [hrad, Complex.abs_apply, Complex.abs_apply, h2]
  · have h3 := circleFrom3Points_center_normSq₃ p1 p2 p3 h
    rw [hrad, Complex.abs_apply, Complex.abs_apply, h3]

/-- Claim C6 witness: the triple `0, 2, 2i` is non-collinear and the computed
circle is equidistant from all three points. -/
theorem circleFrom3Points_circumscribes_witness :
    circleDet 0 2 ⟨0, 2⟩ ≠ 0 ∧
      (Complex.abs ((circleFrom3Points 0 2 ⟨0, 2⟩).center - 0) =
          (circleFrom3Points 0 2 ⟨0, 2⟩).radius ∧
        Complex.abs ((circleFrom3Points 0 2 ⟨0, 2⟩).center - 2) =
          (circleFrom3Points 0 2 ⟨0, 2⟩).radius ∧
        Complex.abs ((circleFrom3Points 0 2 ⟨0, 2⟩).center - ⟨0, 2⟩) =
          (circleFrom3Points 0 2 ⟨0, 2⟩).radius) :=
  ⟨by norm_num [circleDet], circleFrom3Points_circumscribes 0 2 ⟨0, 2⟩ (by norm_num [circleDet])⟩

end

noncomputable section

/-- Claim C2 counterexample: on the collinear triple `0, 1, 2` the determinant
is exactly `0`, yet `circleFrom3Points` does not fail: it silently returns a
garbage circle (the divisions by the zero determinant; center `0`, radius `0`
in the real-arithmetic model). -/
theorem circleFrom3Points_collinear_counterexample :
    circleDet 0 1 2 = 0 ∧ circleFrom3Points 0 1 2 = ⟨0, 0⟩ := by
  constructor
  · norm_num [circleDet]
  · simp only [circleFrom3Points, CircleR.mk.injEq]
    norm_num [Complex.ext_iff]

/-- Claim C2 amended: `circleFrom3Points` performs no collinearity check.  For
every triple whose determinant is zero (in particular every collinear triple)
it still returns a value — the junk circle obtained by dividing by the zero
determinant — instead of failing detectably. -/
theorem circleFrom3Points_collinear_silent_junk (p1 p2 p3 : ℂ)
    (h : circleDet p1 p2 p3 = 0) :
    circleFrom3Points p1 p2 p3 = ⟨0, Complex.abs p1⟩ := by
  simp only [circleDet] at h
  simp only [circleFrom3Points, h, div_zero, CircleR.mk.injEq]
  have h0 : ((⟨(0 : ℝ) / 0, (0 : ℝ) / 0⟩ : ℂ)) = 0 := by simp [Complex.ext_iff]
  constructor
  · simp [Complex.ext_iff]
  · rw [show ((⟨0, 0⟩ : ℂ)) = (0 : ℂ) from by simp [Complex.ext_iff], zero_sub,
      Complex.abs.map_neg]

/-- Claim C2 amended witness: on the concrete collinear triple `0, 3, 6` the
determinant vanishes and the function returns the junk circle. -/
theorem circleFrom3Points_collinear_silent_junk_witness :
    circleDet 0 3 6 = 0 ∧ circleFrom3Points 0 3 6 = ⟨0, Complex.abs 0⟩ :=
  ⟨by norm_num [circleDet],
    circleFrom3Points_collinear_silent_junk 0 3 6 (by norm_num [circleDet])⟩

end

noncomputable section

/-- Claim C7: for externally tangent circles (`|c2 - c1| = r1 + r2` exactly,
with the center distance at least the `1e-12` coincidence threshold),
`circleCircleIntersections` returns exactly one point, and that point lies on
the segment between the centers at distance `r1` from `c1`. -/
theorem circleCircleIntersections_tangent (c1 c2 : ℂ) (r1 r2 : ℝ)
    (hr1 : 0 ≤ r1) (hr2 : 0 ≤ r2)
    (hd : Complex.abs (c2 - c1) = r1 + r2)
    (hmin : 1e-12 ≤ Complex.abs (c2 - c1)) :
    circleCircleIntersections c1 r1 c2 r2 = [c1 + (r1 / (r1 + r2)) • (c2 - c1)] ∧
      Complex.abs ((c1 + (r1 / (r1 + r2)) • (c2 - c1)) - c1) = r1 := by
  have hd0 : (0 : ℝ) < Complex.abs (c2 - c1) := lt_of_lt_of_le (by norm_num) hmin
  have hsum0 : (0 : ℝ) < r1 + r2 := hd ▸ hd0
  have hguard : ¬((r1 + r2 : ℝ) > r1 + r2 ∨ (r1 + r2 : ℝ) < |r1 - r2| ∨
      (r1 + r2 : ℝ) < 1e-12) := by
    push_neg
    exact ⟨le_refl _, abs_le.mpr ⟨by linarith, by linarith⟩, hd ▸ hmin⟩
  have hx : (r1 * r1 - r2 * r2 + (r1 + r2) * (r1 + r2)) / (2 * (r1 + r2)) = r1 := by
    field_simp
    ring
  constructor
  · simp only [circleCircleIntersections, hd, hguard, if_false, hx, sub_self]
    norm_num
  · rw [add_sub_cancel_left, Complex.real_smul, map_mul, Complex.abs_ofReal, hd,
      abs_of_nonneg (div_nonneg hr1 (le_of_lt hsum0)), div_mul_cancel₀ _ (ne_of_gt hsum0)]

/-- Claim C7 witness: the circles centered at `0` and `3` with radii `1` and
`2` are externally tangent and intersect in the single point `1`. -/
theorem circleCircleIntersections_tangent_witness :
    (0 : ℝ) ≤ 1 ∧ (0 : ℝ) ≤ 2 ∧ Complex.abs ((3 : ℂ) - 0) = 1 + 2 ∧
      (1e-12 : ℝ) ≤ Complex.abs ((3 : ℂ) - 0) ∧
      (circleCircleIntersections 0 1 3 2 = [0 + ((1 : ℝ) / (1 + 2)) • ((3 : ℂ) - 0)] ∧
        Complex.abs ((0 + ((1 : ℝ) / (1 + 2)) • ((3 : ℂ) - 0)) - 0) = 1) := by
  have habs : Complex.abs ((3 : ℂ) - 0) = 1 + 2 := by
    norm_num [Complex.abs_apply, Complex.normSq_apply]
  exact ⟨by norm_num, by norm_num, habs, by rw [habs]; norm_num,
    circleCircleIntersections_tangent 0 3 1 2 (by norm_num) (by norm_num) habs
      (by rw [habs]; norm_num)⟩

end

noncomputable section

/-- The polar factor `versor t` is the complex exponential of `i t`. -/
theorem versor_eq_exp (t : ℝ) : versor t = Complex.exp (t * Complex.I) := by
  apply Complex.ext
  · rw [Complex.exp_ofReal_mul_I_re]; rfl
  · rw [Complex.exp_ofReal_mul_I_im]; rfl

/-- The first square root returned by the source routine `root(2)`
(branch `k = 0`): `sqrt r · versor(φ/2)`. -/
theorem root_two_headI (z : ℂ) :
    (root z 2).headI = Real.sqrt (Complex.abs z) • versor (Complex.arg z / 2) := by
  simp only [root, show List.range 2 = [0, 1] from rfl, List.map_cons, List.map_nil,
    List.headI]
  rw [Real.sqrt_eq_rpow]
  norm_num

/-- Squaring the chosen square-root branch recovers the radicand. -/
theorem root_two_headI_sq (z : ℂ) : ((root z 2).headI) ^ 2 = z := by
  rw [root_two_headI, versor_eq_exp, Complex.real_smul, mul_pow, ← Complex.ofReal_pow,
    Real.sq_sqrt (Complex.abs.nonneg z), sq, ← Complex.exp_add]
  rw [show ((Complex.arg z / 2 : ℝ) : ℂ) * Complex.I + ((Complex.arg z / 2 : ℝ) : ℂ) *
      Complex.I = (Complex.arg z : ℂ) * Complex.I by push_cast; ring]
  exact Complex.abs_mul_exp_arg_mul_I z

/-- The chosen square-root branch of a nonzero number is nonzero. -/
theorem root_two_headI_ne_zero (z : ℂ) (hz : z ≠ 0) : (root z 2).headI ≠ 0 := by
  rw [root_two_headI, Complex.real_smul, versor_eq_exp]
  exact mul_ne_zero
    (Complex.ofReal_ne_zero.mpr (Real.sqrt_ne_zero'.mpr (Complex.abs.pos hz)))
    (Complex.exp_ne_zero _)

/-- The record of Möbius coefficients built by `MobiusMap3PointsTo_m101`. -/
structure MobiusT where
  a : ℂ
  b : ℂ
  c : ℂ
  d : ℂ

/-- Source `MobiusMap3PointsTo_m101(P, Q, R)`: the Möbius transformation
coefficients sending `P, Q, R` to `-1, 0, 1`, with common denominator the
first square root (`denoms[0]`) of `2 (P-R)(Q-P)(Q-R)`. -/
def MobiusMap3PointsTo_m101 (P Q R : ℂ) : MobiusT :=
  let denom := (root ((P - R) * (Q - P) * (Q - R) * 2) 2).headI
  { a := (P - R) / denom
    b := (-Q * (P - R)) / denom
    c := ((Q - P) + (Q - R)) / denom
    d := ((-P * (Q - R)) - R * (Q - P)) / denom }

/-- Source `applyMobiusTrans(MMap, z, inverted)`: `(az+b)/(cz+d)` in forward
mode, `(dz-b)/(-cz+a)` in inverted mode. -/
def applyMobiusTrans (MMap : MobiusT) (z : ℂ) (inverted : Bool := false) : ℂ :=
  if inverted then (MMap.d * z - MMap.b) / (MMap.a - MMap.c * z)
  else (MMap.a * z + MMap.b) / (MMap.d + MMap.c * z)

/-- The radicand used by `MobiusMap3PointsTo_m101` is nonzero for pairwise
distinct points. -/
theorem mobius_radicand_ne_zero (P Q R : ℂ) (hPQ : P ≠ Q) (hQR : Q ≠ R)
    (hPR : P ≠ R) : (P - R) * (Q - P) * (Q - R) * 2 ≠ 0 :=
  mul_ne_zero (mul_ne_zero (mul_ne_zero (sub_ne_zero.mpr hPR)
    (sub_ne_zero.mpr (Ne.symm hPQ))) (sub_ne_zero.mpr hQR)) two_ne_zero

/-- Shared algebra: the constructed transform is unimodular, `ad - bc = 1`. -/
theorem mobius_det_one_aux (P Q R : ℂ) (hPQ : P ≠ Q) (hQR : Q ≠ R) (hPR : P ≠ R) :
    (MobiusMap3PointsTo_m101 P Q R).a * (MobiusMap3PointsTo_m101 P Q R).d -
      (MobiusMap3PointsTo_m101 P Q R).b * (MobiusMap3PointsTo_m101 P Q R).c = 1 := by
  have hw := mobius_radicand_ne_zero P Q R hPQ hQR hPR
  have hs := root_two_headI_ne_zero _ hw
  have hs2 := root_two_headI_sq ((P - R) * (Q - P) * (Q - R) * 2)
  simp only [MobiusMap3PointsTo_m101]
  field_simp
  linear_combination -hs2

end

noncomputable section

/-- Claim C10: for pairwise-distinct `P, Q, R` the coefficients built by
`MobiusMap3PointsTo_m101` satisfy `a·d - b·c = 1` exactly: the transform is
unimodular, so the inverted mode of `applyMobiusTrans` needs no
renormalization. -/
theorem MobiusMap3PointsTo_m101_unimodular (P Q R : ℂ) (hPQ : P ≠ Q)
    (hQR : Q ≠ R) (hPR : P ≠ R) :
    (MobiusMap3PointsTo_m101 P Q R).a * (MobiusMap3PointsTo_m101 P Q R).d -
      (MobiusMap3PointsTo_m101 P Q R).b * (MobiusMap3PointsTo_m101 P Q R).c = 1 :=
  mobius_det_one_aux P Q R hPQ hQR hPR

/-- Claim C10 witness: the transform built from the distinct points `0, 1, 2`
is unimodular. -/
theorem MobiusMap3PointsTo_m101_unimodular_witness :
    (0 : ℂ) ≠ 1 ∧ (1 : ℂ) ≠ 2 ∧ (0 : ℂ) ≠ 2 ∧
      (MobiusMap3PointsTo_m101 0 1 2).a * (MobiusMap3PointsTo_m101 0 1 2).d -
        (MobiusMap3PointsTo_m101 0 1 2).b * (MobiusMap3PointsTo_m101 0 1 2).c = 1 :=
  ⟨by norm_num, by norm_num, by norm_num,
    MobiusMap3PointsTo_m101_unimodular 0 1 2 (by norm_num) (by norm_num) (by norm_num)⟩

/-- Claim C3: for pairwise-distinct `P, Q, R` the transform built by
`MobiusMap3PointsTo_m101`, applied in forward mode by `applyMobiusTrans`,
sends `P` to `-1`, `Q` to `0` and `R` to `1`. -/
theorem MobiusMap3PointsTo_m101_maps (P Q R : ℂ) (hPQ : P ≠ Q) (hQR : Q ≠ R)
    (hPR : P ≠ R) :
    applyMobiusTrans (MobiusMap3PointsTo_m101 P Q R) P false = -1 ∧
      applyMobiusTrans (MobiusMap3PointsTo_m101 P Q R) Q false = 0 ∧
      applyMobiusTrans (MobiusMap3PointsTo_m101 P Q R) R false = 1 := by
  have hw := mobius_radicand_ne_zero P Q R hPQ hQR hPR
  have hQP : Q - P ≠ 0 := sub_ne_zero.mpr (Ne.symm hPQ)
  have hPR' : P - R ≠ 0 := sub_ne_zero.mpr hPR
  have hQR' : Q - R ≠ 0 := sub_ne_zero.mpr hQR
  have hRP : R - P ≠ 0 := sub_ne_zero.mpr (Ne.symm hPR)
  simp only [applyMobiusTrans, MobiusMap3PointsTo_m101, Bool.false_eq_true, if_false]
  set s := (root ((P - R) * (Q - P) * (Q - R) * 2) 2).headI with hs_def
  have hs : s ≠ 0 := root_two_headI_ne_zero _ hw
  refine ⟨?_, ?_, ?_⟩
  · rw [show (P - R) / s * P + -Q * (P - R) / s = ((P - R) * (P - Q)) / s by ring,
      show (-P * (Q - R) - R * (Q - P)) / s + (Q - P + (Q - R)) / s * P
        = ((Q - P) * (P - R)) / s by ring]
    rw [div_div_div_cancel_right₀ hs]
    rw [div_eq_iff (mul_ne_zero hQP hPR')]
    ring
  · rw [show (P - R) / s * Q + -Q * (P - R) / s = 0 / s by ring, zero_div, zero_div]
  · rw [show (P - R) / s * R + -Q * (P - R) / s = ((P - R) * (R - Q)) / s by ring,
      show (-P * (Q - R) - R * (Q - P)) / s + (Q - P + (Q - R)) / s * R
        = ((Q - R) * (R - P)) / s by ring]
    rw [div_div_div_cancel_right₀ hs]
    rw [div_eq_iff (mul_ne_zero hQR' hRP)]
    ring

/-- Claim C3 witness: at the distinct triple `0, 1, 2` the transform maps the
three points to `-1, 0, 1`. -/
theorem MobiusMap3PointsTo_m101_maps_witness :
    (0 : ℂ) ≠ 1 ∧ (1 : ℂ) ≠ 2 ∧ (0 : ℂ) ≠ 2 ∧
      (applyMobiusTrans (MobiusMap3PointsTo_m101 0 1 2) 0 false = -1 ∧
        applyMobiusTrans (MobiusMap3PointsTo_m101 0 1 2) 1 false = 0 ∧
        applyMobiusTrans (MobiusMap3PointsTo_m101 0 1 2) 2 false = 1) :=
  ⟨by norm_num, by norm_num, by norm_num,
    MobiusMap3PointsTo_m101_maps 0 1 2 (by norm_num) (by norm_num) (by norm_num)⟩

end

noncomputable section

/-- Forward-then-inverted round trip for any unimodular transform, at points
where the forward evaluation is defined. -/
theorem applyMobiusTrans_fwd_inv (M : MobiusT) (hdet : M.a * M.d - M.b * M.c = 1)
    (z : ℂ) (hz : M.d + M.c * z ≠ 0) :
    applyMobiusTrans M (applyMobiusTrans M z false) true = z := by
  simp only [applyMobiusTrans, Bool.false_eq_true, if_false, eq_self_iff_true, if_true]
  have h1 : M.d * ((M.a * z + M.b) / (M.d + M.c * z)) - M.b = z / (M.d + M.c * z) := by
    field_simp
    linear_combination z * hdet
  have h2 : M.a - M.c * ((M.a * z + M.b) / (M.d + M.c * z)) = 1 / (M.d + M.c * z) := by
    field_simp
    linear_combination hdet
  rw [h1, h2, div_div_div_cancel_right₀ hz, div_one]

/-- Inverted-then-forward round trip for any unimodular transform, at points
where the inverted evaluation is defined. -/
theorem applyMobiusTrans_inv_fwd (M : MobiusT) (hdet : M.a * M.d - M.b * M.c = 1)
    (z : ℂ) (hz : M.a - M.c * z ≠ 0) :
    applyMobiusTrans M (applyMobiusTrans M z true) false = z := by
  simp only [applyMobiusTrans, Bool.false_eq_true, if_false, eq_self_iff_true, if_true]
  have h1 : M.a * ((M.d * z - M.b) / (M.a - M.c * z)) + M.b = z / (M.a - M.c * z) := by
    field_simp
    linear_combination z * hdet
  have h2 : M.d + M.c * ((M.d * z - M.b) / (M.a - M.c * z)) = 1 / (M.a - M.c * z) := by
    field_simp
    linear_combination hdet
  rw [h1, h2, div_div_div_cancel_right₀ hz, div_one]

/-- Claim C4: for a transform built by `MobiusMap3PointsTo_m101` from
pairwise-distinct points and any point at which both evaluations are defined
(nonvanishing denominators), the forward and inverted modes of
`applyMobiusTrans` are exact algebraic inverses of each other, in both
orders. -/
theorem applyMobiusTrans_roundtrip (P Q R z : ℂ) (hPQ : P ≠ Q) (hQR : Q ≠ R)
    (hPR : P ≠ R)
    (h1 : (MobiusMap3PointsTo_m101 P Q R).d +
      (MobiusMap3PointsTo_m101 P Q R).c * z ≠ 0)
    (h2 : (MobiusMap3PointsTo_m101 P Q R).a -
      (MobiusMap3PointsTo_m101 P Q R).c * z ≠ 0) :
    applyMobiusTrans (MobiusMap3PointsTo_m101 P Q R)
        (applyMobiusTrans (MobiusMap3PointsTo_m101 P Q R) z false) true = z ∧
      applyMobiusTrans (MobiusMap3PointsTo_m101 P Q R)
        (applyMobiusTrans (MobiusMap3PointsTo_m101 P Q R) z true) false = z :=
  ⟨applyMobiusTrans_fwd_inv _ (mobius_det_one_aux P Q R hPQ hQR hPR) z h1,
    applyMobiusTrans_inv_fwd _ (mobius_det_one_aux P Q R hPQ hQR hPR) z h2⟩

end

noncomputable section

/-- Claim C4 witness: at the distinct triple `0, 1, 2` and the point `i`, both
denominators are nonzero and both round trips return `i`. -/
theorem applyMobiusTrans_roundtrip_witness :
    ((MobiusMap3PointsTo_m101 0 1 2).d +
        (MobiusMap3PointsTo_m101 0 1 2).c * Complex.I ≠ 0) ∧
      ((MobiusMap3PointsTo_m101 0 1 2).a -
        (MobiusMap3PointsTo_m101 0 1 2).c * Complex.I ≠ 0) ∧
      (applyMobiusTrans (MobiusMap3PointsTo_m101 0 1 2)
          (applyMobiusTrans (MobiusMap3PointsTo_m101 0 1 2) Complex.I false) true
            = Complex.I ∧
        applyMobiusTrans (MobiusMap3PointsTo_m101 0 1 2)
          (applyMobiusTrans (MobiusMap3PointsTo_m101 0 1 2) Complex.I true) false
            = Complex.I) := by
  have hw : ((0 : ℂ) - 2) * ((1 : ℂ) - 0) * ((1 : ℂ) - 2) * 2 ≠ 0 := by norm_num
  have hs := root_two_headI_ne_zero _ hw
  have h1 : (MobiusMap3PointsTo_m101 0 1 2).d +
      (MobiusMap3PointsTo_m101 0 1 2).c * Complex.I ≠ 0 := by
    simp only [MobiusMap3PointsTo_m101]
    rw [show (-(0 : ℂ) * ((1 : ℂ) - 2) - 2 * ((1 : ℂ) - 0)) /
          (root (((0 : ℂ) - 2) * ((1 : ℂ) - 0) * ((1 : ℂ) - 2) * 2) 2).headI +
        (((1 : ℂ) - 0) + ((1 : ℂ) - 2)) /
          (root (((0 : ℂ) - 2) * ((1 : ℂ) - 0) * ((1 : ℂ) - 2) * 2) 2).headI *
            Complex.I
        = (-2 : ℂ) /
            (root (((0 : ℂ) - 2) * ((1 : ℂ) - 0) * ((1 : ℂ) - 2) * 2) 2).headI
      from by ring]
    exact div_ne_zero (by norm_num) hs
  have h2 : (MobiusMap3PointsTo_m101 0 1 2).a -
      (MobiusMap3PointsTo_m101 0 1 2).c * Complex.I ≠ 0 := by
    simp only [MobiusMap3PointsTo_m101]
    rw [show ((0 : ℂ) - 2) /
          (root (((0 : ℂ) - 2) * ((1 : ℂ) - 0) * ((1 : ℂ) - 2) * 2) 2).headI -
        (((1 : ℂ) - 0) + ((1 : ℂ) - 2)) /
          (root (((0 : ℂ) - 2) * ((1 : ℂ) - 0) * ((1 : ℂ) - 2) * 2) 2).headI *
            Complex.I
        = (-2 : ℂ) /
            (root (((0 : ℂ) - 2) * ((1 : ℂ) - 0) * ((1 : ℂ) - 2) * 2) 2).headI
      from by ring]
    exact div_ne_zero (by norm_num) hs
  exact ⟨h1, h2,
    applyMobiusTrans_roundtrip 0 1 2 Complex.I (by norm_num) (by norm_num)
      (by norm_num) h1 h2⟩

end

noncomputable section

/-- Line normal slope of `intersectCircleWithOriginLine`: with
`nx = refDir.y`, `ny = -refDir.x`, the source local `slope = -nx / ny`. -/
def olSlope (refDir : ℂ) : ℝ := -refDir.im / -refDir.re

/-- Quadratic coefficient `A = 1 + slope*slope` of the source. -/
def olA (refDir : ℂ) : ℝ := 1 + olSlope refDir * olSlope refDir

/-- Quadratic coefficient `B = -2*(cenX + slope*cenY)` of the source. -/
def olB (invCen : ℂ) (refDir : ℂ) : ℝ :=
  -2 * (invCen.re + olSlope refDir * invCen.im)

/-- Quadratic coefficient `C = cenX² + cenY² - invRad²` of the source. -/
def olC (invCen : ℂ) (invRad : ℝ) : ℝ :=
  invCen.re * invCen.re + invCen.im * invCen.im - invRad * invRad

/-- Discriminant `disc = B*B - 4*A*C` of the source. -/
def olDisc (invCen : ℂ) (invRad : ℝ) (refDir : ℂ) : ℝ :=
  olB invCen refDir * olB invCen refDir - 4 * olA refDir * olC invCen invRad

/-- First quadratic root `x1 = (-B + sqrt disc) / (2A)` of the source. -/
def olX1 (invCen : ℂ) (invRad : ℝ) (refDir : ℂ) : ℝ :=
  (-olB invCen refDir + Real.sqrt (olDisc invCen invRad refDir)) / (2 * olA refDir)

/-- Second quadratic root `x2 = (-B - sqrt disc) / (2A)` of the source. -/
def olX2 (invCen : ℂ) (invRad : ℝ) (refDir : ℂ) : ℝ :=
  (-olB invCen refDir - Real.sqrt (olDisc invCen invRad refDir)) / (2 * olA refDir)

/-- Source `cand1 = (x1, slope*x1)` of the non-vertical branch. -/
def olCand1 (invCen : ℂ) (invRad : ℝ) (refDir : ℂ) : ℂ :=
  ⟨olX1 invCen invRad refDir, olSlope refDir * olX1 invCen invRad refDir⟩

/-- Source `cand2 = (x2, slope*x2)` of the non-vertical branch. -/
def olCand2 (invCen : ℂ) (invRad : ℝ) (refDir : ℂ) : ℂ :=
  ⟨olX2 invCen invRad refDir, olSlope refDir * olX2 invCen invRad refDir⟩

/-- Radical term `radTerm = invRad² - cenX²` of the near-vertical branch. -/
def olVertRadTerm (invCen : ℂ) (invRad : ℝ) : ℝ :=
  invRad * invRad - invCen.re * invCen.re

/-- The source clamps a negative radical term to `0` ("numerical safety"). -/
def olVertClamped (invCen : ℂ) (invRad : ℝ) : ℝ :=
  if olVertRadTerm invCen invRad < 0 then 0 else olVertRadTerm invCen invRad

/-- Source `cand1 = (0, cenY + sqrt radTerm)` of the near-vertical branch. -/
def olVCand1 (invCen : ℂ) (invRad : ℝ) : ℂ :=
  ⟨0, invCen.im + Real.sqrt (olVertClamped invCen invRad)⟩

/-- Source `cand2 = (0, cenY - sqrt radTerm)` of the near-vertical branch. -/
def olVCand2 (invCen : ℂ) (invRad : ℝ) : ℂ :=
  ⟨0, invCen.im - Real.sqrt (olVertClamped invCen invRad)⟩

/-- Source `intersectCircleWithOriginLine(invCen, invRad, refDir)`: intersects
the circle with the line `nx·x + ny·y = 0` where `(nx, ny) =
(refDir.y, -refDir.x)`; the near-vertical case `|ny| ≤ 1e-12` is handled by
direct substitution `x = 0`.  Returns `none` only on a negative discriminant
in the non-vertical branch. -/
def intersectCircleWithOriginLine (invCen : ℂ) (invRad : ℝ) (refDir : ℂ) :
    Option ℂ :=
  if |-refDir.re| > 1e-12 then
    if olDisc invCen invRad refDir < 0 then none
    else some (if Complex.abs (olCand1 invCen invRad refDir) <
        Complex.abs (olCand2 invCen invRad refDir) then olCand1 invCen invRad refDir
      else olCand2 invCen invRad refDir)
  else
    some (if Complex.abs (olVCand1 invCen invRad) <
        Complex.abs (olVCand2 invCen invRad) then olVCand1 invCen invRad
      else olVCand2 invCen invRad)

/-- Membership of a point on the line through the origin determined by
`refDir` (the line `nx·x + ny·y = 0` of the source). -/
def onOriginLine (refDir : ℂ) (v : ℂ) : Prop :=
  refDir.im * v.re + -refDir.re * v.im = 0

/-- Membership of a point on the circle with the given center and radius. -/
def onCircle (cen : ℂ) (r : ℝ) (v : ℂ) : Prop :=
  (v.re - cen.re) ^ 2 + (v.im - cen.im) ^ 2 = r ^ 2

/-- Claim C8 counterexample: for the circle centered at `5` with radius `1`
and the near-vertical direction `i`, the radical term (the discriminant of
the vertical branch) is negative — the line misses the circle — yet the
function does not return "no result": it clamps and returns `some 0`, a
point that is not on the circle. -/
theorem intersectCircleWithOriginLine_counterexample :
    olVertRadTerm ⟨5, 0⟩ 1 < 0 ∧
      intersectCircleWithOriginLine ⟨5, 0⟩ 1 ⟨0, 1⟩ = some 0 ∧
      ¬ onCircle ⟨5, 0⟩ 1 0 := by
  refine ⟨by norm_num [olVertRadTerm], ?_, by norm_num [onCircle]⟩
  have hbranch : ¬(|-(⟨0, 1⟩ : ℂ).re| > 1e-12) := by norm_num
  have hclamp : olVertClamped ⟨5, 0⟩ 1 = 0 := by
    norm_num [olVertClamped, olVertRadTerm]
  have hv1 : olVCand1 ⟨5, 0⟩ 1 = 0 := by
    simp [olVCand1, hclamp, Complex.ext_iff]
  have hv2 : olVCand2 ⟨5, 0⟩ 1 = 0 := by
    simp [olVCand2, hclamp, Complex.ext_iff]
  simp only [intersectCircleWithOriginLine]
  rw [if_neg hbranch, hv1, hv2]
  norm_num

end

noncomputable section

theorem olA_pos (dir : ℂ) : (0 : ℝ) < olA dir := by
  have := mul_self_nonneg (olSlope dir)
  simp only [olA]
  linarith

theorem ol_quadratic_root1 (cen : ℂ) (r : ℝ) (dir : ℂ)
    (hdisc : 0 ≤ olDisc cen r dir) :
    olA dir * olX1 cen r dir ^ 2 + olB cen dir * olX1 cen r dir + olC cen r = 0 := by
  have hA : olA dir ≠ 0 := ne_of_gt (olA_pos dir)
  have key : Real.sqrt (olDisc cen r dir) ^ 2 =
      olB cen dir * olB cen dir - 4 * olA dir * olC cen r := Real.sq_sqrt hdisc
  simp only [olX1]
  field_simp
  linear_combination (2 * olA dir ^ 2) * key

theorem ol_quadratic_root2 (cen : ℂ) (r : ℝ) (dir : ℂ)
    (hdisc : 0 ≤ olDisc cen r dir) :
    olA dir * olX2 cen r dir ^ 2 + olB cen dir * olX2 cen r dir + olC cen r = 0 := by
  have hA : olA dir ≠ 0 := ne_of_gt (olA_pos dir)
  have key : Real.sqrt (olDisc cen r dir) ^ 2 =
      olB cen dir * olB cen dir - 4 * olA dir * olC cen r := Real.sq_sqrt hdisc
  simp only [olX2]
  field_simp
  linear_combination (2 * olA dir ^ 2) * key

theorem ol_onLine (dir : ℂ) (hre : dir.re ≠ 0) (x : ℝ) :
    onOriginLine dir ⟨x, olSlope dir * x⟩ := by
  simp only [onOriginLine, olSlope]
  field_simp
  ring

theorem ol_onCircle_of_root (cen : ℂ) (r : ℝ) (dir : ℂ) (x : ℝ)
    (hx : olA dir * x ^ 2 + olB cen dir * x + olC cen r = 0) :
    onCircle cen r ⟨x, olSlope dir * x⟩ := by
  simp only [olA, olB, olC] at hx
  simp only [onCircle]
  linear_combination hx

end

noncomputable section

theorem ol_roots_complete (cen : ℂ) (r : ℝ) (dir : ℂ) (hre : dir.re ≠ 0)
    (hdisc : 0 ≤ olDisc cen r dir) (w : ℂ) (hw1 : onOriginLine dir w)
    (hw2 : onCircle cen r w) :
    w = olCand1 cen r dir ∨ w = olCand2 cen r dir := by
  have hA : olA dir ≠ 0 := ne_of_gt (olA_pos dir)
  have him : w.im = olSlope dir * w.re := by
    simp only [onOriginLine] at hw1
    simp only [olSlope]
    field_simp
    linear_combination -hw1
  have hq : olA dir * w.re ^ 2 + olB cen dir * w.re + olC cen r = 0 := by
    simp only [onCircle] at hw2
    rw [him] at hw2
    simp only [olA, olB, olC]
    linear_combination hw2
  have key : Real.sqrt (olDisc cen r dir) ^ 2 =
      olB cen dir * olB cen dir - 4 * olA dir * olC cen r := Real.sq_sqrt hdisc
  have hfac : olA dir * (w.re - olX1 cen r dir) * (w.re - olX2 cen r dir) = 0 := by
    have expand : olA dir * (w.re - olX1 cen r dir) * (w.re - olX2 cen r dir)
        = olA dir * w.re ^ 2 + olB cen dir * w.re + olC cen r := by
      simp only [olX1, olX2]
      field_simp
      linear_combination (-olA dir) * key
    rw [expand, hq]
  rcases mul_eq_zero.mp hfac with h | h
  · rcases mul_eq_zero.mp h with h0 | h1
    · exact absurd h0 hA
    · left
      apply Complex.ext
      · simpa [olCand1, sub_eq_zero] using h1
      · have hre1 : w.re = olX1 cen r dir := by linarith [h1]
        rw [him, hre1]
        rfl
  · right
    apply Complex.ext
    · simpa [olCand2, sub_eq_zero] using h
    · have hre2 : w.re = olX2 cen r dir := by linarith [h]
      rw [him, hre2]
      rfl

theorem olV_onCircle (cen : ℂ) (r : ℝ) (hrad : 0 ≤ olVertRadTerm cen r) :
    onCircle cen r (olVCand1 cen r) ∧ onCircle cen r (olVCand2 cen r) := by
  have hcl : olVertClamped cen r = olVertRadTerm cen r := if_neg (not_lt.mpr hrad)
  have hs2 : Real.sqrt (olVertClamped cen r) ^ 2 =
      r * r - cen.re * cen.re := by
    rw [hcl]
    exact Real.sq_sqrt hrad
  constructor
  · simp only [onCircle, olVCand1]
    linear_combination hs2
  · simp only [onCircle, olVCand2]
    linear_combination hs2

end

noncomputable section

/-- Claim C8 amended: in the non-vertical branch (`|ny| > 1e-12`) the function
returns `none` when the discriminant is negative, and otherwise a point of the
line and circle whose norm is no larger than either quadratic-root candidate
(and every line-circle intersection is one of the two candidates).  In the
near-vertical branch it never returns `none`: it always returns the
smaller-norm of the two direct-substitution candidates, which lies on `x = 0`
and is on the circle whenever the radical term is nonnegative (a negative
radical term is clamped to `0` instead of signalling "no result"). -/
theorem intersectCircleWithOriginLine_behavior (cen : ℂ) (r : ℝ) (dir : ℂ) :
    (|-dir.re| > 1e-12 → olDisc cen r dir < 0 →
        intersectCircleWithOriginLine cen r dir = none) ∧
      (|-dir.re| > 1e-12 → 0 ≤ olDisc cen r dir →
        ∃ v, intersectCircleWithOriginLine cen r dir = some v ∧
          onOriginLine dir v ∧ onCircle cen r v ∧
          Complex.abs v ≤ Complex.abs (olCand1 cen r dir) ∧
          Complex.abs v ≤ Complex.abs (olCand2 cen r dir) ∧
          ∀ w, onOriginLine dir w → onCircle cen r w →
            w = olCand1 cen r dir ∨ w = olCand2 cen r dir) ∧
      (¬(|-dir.re| > 1e-12) →
        ∃ v, intersectCircleWithOriginLine cen r dir = some v ∧ v.re = 0 ∧
          Complex.abs v ≤ Complex.abs (olVCand1 cen r) ∧
          Complex.abs v ≤ Complex.abs (olVCand2 cen r) ∧
          (0 ≤ olVertRadTerm cen r → onCircle cen r v)) := by
  refine ⟨?_, ?_, ?_⟩
  · intro hb hd
    simp only [intersectCircleWithOriginLine]
    rw [if_pos hb, if_pos hd]
  · intro hb hd
    have hre : dir.re ≠ 0 := by
      intro h0
      rw [h0] at hb
      norm_num at hb
    refine ⟨if Complex.abs (olCand1 cen r dir) < Complex.abs (olCand2 cen r dir)
        then olCand1 cen r dir else olCand2 cen r dir, ?_, ?_, ?_, ?_, ?_, ?_⟩
    · simp only [intersectCircleWithOriginLine]
      rw [if_pos hb, if_neg (not_lt.mpr hd)]
    · by_cases hc : Complex.abs (olCand1 cen r dir) < Complex.abs (olCand2 cen r dir)
      · rw [if_pos hc]
        exact ol_onLine dir hre _
      · rw [if_neg hc]
        exact ol_onLine dir hre _
    · by_cases hc : Complex.abs (olCand1 cen r dir) < Complex.abs (olCand2 cen r dir)
      · rw [if_pos hc]
        exact ol_onCircle_of_root cen r dir _ (ol_quadratic_root1 cen r dir hd)
      · rw [if_neg hc]
        exact ol_onCircle_of_root cen r dir _ (ol_quadratic_root2 cen r dir hd)
    · by_cases hc : Complex.abs (olCand1 cen r dir) < Complex.abs (olCand2 cen r dir)
      · rw [if_pos hc]
      · rw [if_neg hc]
        exact le_of_not_lt hc
    · by_cases hc : Complex.abs (olCand1 cen r dir) < Complex.abs (olCand2 cen r dir)
      · rw [if_pos hc]
        exact le_of_lt hc
      · rw [if_neg hc]
    · exact fun w hw1 hw2 => ol_roots_complete cen r dir hre hd w hw1 hw2
  · intro hb
    refine ⟨if Complex.abs (olVCand1 cen r) < Complex.abs (olVCand2 cen r)
        then olVCand1 cen r else olVCand2 cen r, ?_, ?_, ?_, ?_, ?_⟩
    · simp only [intersectCircleWithOriginLine]
      rw [if_neg hb]
    · by_cases hc : Complex.abs (olVCand1 cen r) < Complex.abs (olVCand2 cen r)
      · rw [if_pos hc]
        rfl
      · rw [if_neg hc]
        rfl
    · by_cases hc : Complex.abs (olVCand1 cen r) < Complex.abs (olVCand2 cen r)
      · rw [if_pos hc]
      · rw [if_neg hc]
        exact le_of_not_lt hc
    · by_cases hc : Complex.abs (olVCand1 cen r) < Complex.abs (olVCand2 cen r)
      · rw [if_pos hc]
        exact le_of_lt hc
      · rw [if_neg hc]
    · intro hrad
      by_cases hc : Complex.abs (olVCand1 cen r) < Complex.abs (olVCand2 cen r)
      · rw [if_pos hc]
        exact (olV_onCircle cen r hrad).1
      · rw [if_neg hc]
        exact (olV_onCircle cen r hrad).2

/-- Claim C8 amended witness: for the circle centered at `5i` with radius `1`
and the non-vertical direction `1`, the discriminant is negative and the
function returns `none`. -/
theorem intersectCircleWithOriginLine_behavior_witness :
    (|-((⟨1, 0⟩ : ℂ)).re| > 1e-12) ∧ olDisc ⟨0, 5⟩ 1 ⟨1, 0⟩ < 0 ∧
      intersectCircleWithOriginLine ⟨0, 5⟩ 1 ⟨1, 0⟩ = none :=
  ⟨by norm_num, by norm_num [olDisc, olA, olB, olC, olSlope],
    (intersectCircleWithOriginLine_behavior ⟨0, 5⟩ 1 ⟨1, 0⟩).1 (by norm_num)
      (by norm_num [olDisc, olA, olB, olC, olSlope])⟩

end

noncomputable section

/-- GLSL `normSq(v) = dot(v, v)` of the shader. -/
def shaderNormSq (v : ℂ) : ℝ := v.re * v.re + v.im * v.im

/-- GLSL `dot(a, b)` of the shader. -/
def shaderDot (a b : ℂ) : ℝ := a.re * b.re + a.im * b.im

/-- First step of a pass of the shader reduction loop in `tilingSample`:
invert in the inversion circle if strictly inside
(`z = invCen + invRadSq * diff / distSq`). -/
def invStep (invCen : ℂ) (invRad : ℝ) (z : ℂ) : ℂ :=
  if shaderNormSq (z - invCen) < invRad * invRad then
    invCen + ((invRad * invRad) / shaderNormSq (z - invCen)) • (z - invCen)
  else z

/-- Second step: reflect across the line with normal `refNrm` if on the wrong
side (`z -= 2 * dotProd * refNrm`). -/
def refStep (refNrm : ℂ) (z : ℂ) : ℂ :=
  if shaderDot z refNrm < 0 then z - (2 * shaderDot z refNrm) • refNrm else z

/-- Third step: reflect below the `y = 0` line (`z.y *= -1`). -/
def yStep (z : ℂ) : ℂ := if z.im < 0 then ⟨z.re, -z.im⟩ else z

/-- The point after one full pass of the shader loop body. -/
def reducePassZ (invCen : ℂ) (invRad : ℝ) (refNrm : ℂ) (z : ℂ) : ℂ :=
  yStep (refStep refNrm (invStep invCen invRad z))

/-- Whether any of the three steps fired during the pass (the negation of the
shader flag `fund`, which starts `true` and is cleared by each applied
step).  The second and third conditions are evaluated on the successively
updated point, exactly as in the shader. -/
def reducePassFired (invCen : ℂ) (invRad : ℝ) (refNrm : ℂ) (z : ℂ) : Bool :=
  decide (shaderNormSq (z - invCen) < invRad * invRad) ||
    decide (shaderDot (invStep invCen invRad z) refNrm < 0) ||
    decide ((refStep refNrm (invStep invCen invRad z)).im < 0)

/-- The bounded reduction loop of `tilingSample`: up to `n` passes, stopping
early (second component `true`) as soon as a full pass applies no step. -/
def tilingReduce (invCen : ℂ) (invRad : ℝ) (refNrm : ℂ) : ℕ → ℂ → ℂ × Bool
  | 0, z => (z, false)
  | n + 1, z =>
    if reducePassFired invCen invRad refNrm z then
      tilingReduce invCen invRad refNrm n (reducePassZ invCen invRad refNrm z)
    else (reducePassZ invCen invRad refNrm z, true)

theorem reducePass_fund_conditions (invCen : ℂ) (invRad : ℝ) (refNrm : ℂ)
    (z : ℂ) (h : reducePassFired invCen invRad refNrm z = false) :
    invRad * invRad ≤ shaderNormSq (z - invCen) ∧ 0 ≤ shaderDot z refNrm ∧
      0 ≤ z.im ∧ reducePassZ invCen invRad refNrm z = z := by
  simp only [reducePassFired, Bool.or_eq_false_iff, decide_eq_false_iff_not,
    not_lt] at h
  obtain ⟨⟨h1, h2⟩, h3⟩ := h
  have hz1 : invStep invCen invRad z = z := if_neg (not_lt.mpr h1)
  rw [hz1] at h2 h3
  have hz2 : refStep refNrm z = z := if_neg (not_lt.mpr h2)
  rw [hz2] at h3
  have hz3 : yStep z = z := if_neg (not_lt.mpr h3)
  exact ⟨h1, h2, h3, by simp only [reducePassZ, hz1, hz2, hz3]⟩

/-- Claim C9: whenever the bounded reduction loop exits via its early break
(a full pass applies none of the three steps), the reduced point lies in the
fundamental domain: outside/on the inversion circle, on the nonnegative side
of the reflection normal, and with nonnegative `y` — for every input point
and every iteration bound. -/
theorem tilingReduce_break_in_fund (invCen : ℂ) (invRad : ℝ) (refNrm : ℂ)
    (n : ℕ) (z w : ℂ) (h : tilingReduce invCen invRad refNrm n z = (w, true)) :
    invRad * invRad ≤ shaderNormSq (w - invCen) ∧ 0 ≤ shaderDot w refNrm ∧
      0 ≤ w.im := by
  induction n generalizing z with
  | zero =>
    exfalso
    simp only [tilingReduce, Prod.mk.injEq] at h
    exact Bool.false_ne_true h.2
  | succ n ih =>
    simp only [tilingReduce] at h
    by_cases hf : reducePassFired invCen invRad refNrm z = true
    · rw [if_pos hf] at h
      exact ih _ h
    · rw [if_neg hf] at h
      have hf' : reducePassFired invCen invRad refNrm z = false :=
        Bool.eq_false_iff.mpr hf
      obtain ⟨hc1, hc2, hc3, hzz⟩ :=
        reducePass_fund_conditions invCen invRad refNrm z hf'
      have hw : w = z := by
        rw [Prod.mk.injEq] at h
        rw [← h.1, hzz]
      rw [hw]
      exact ⟨hc1, hc2, hc3⟩

/-- Claim C9 witness: with the inversion circle centered at `2` of radius `1`
and reflection normal `i`, the loop starting at `0` breaks in the first pass
and the final point `0` satisfies all three fundamental-domain conditions. -/
theorem tilingReduce_break_in_fund_witness :
    tilingReduce ⟨2, 0⟩ 1 ⟨0, 1⟩ 1 0 = (0, true) ∧
      1 * 1 ≤ shaderNormSq ((0 : ℂ) - ⟨2, 0⟩) ∧ 0 ≤ shaderDot 0 ⟨0, 1⟩ ∧
      0 ≤ (0 : ℂ).im := by
  have hc1 : ¬(shaderNormSq ((0 : ℂ) - ⟨2, 0⟩) < 1 * 1) := by
    norm_num [shaderNormSq]
  have hstep1 : invStep ⟨2, 0⟩ 1 0 = 0 := if_neg hc1
  have hc2 : ¬(shaderDot (0 : ℂ) ⟨0, 1⟩ < 0) := by norm_num [shaderDot]
  have hstep2 : refStep ⟨0, 1⟩ (0 : ℂ) = 0 := if_neg hc2
  have hc3 : ¬((0 : ℂ).im < 0) := by norm_num
  have hstep3 : yStep (0 : ℂ) = 0 := if_neg hc3
  have hfired : reducePassFired ⟨2, 0⟩ 1 ⟨0, 1⟩ 0 = false := by
    simp only [reducePassFired, hstep1, hstep2, Bool.or_eq_false_iff,
      decide_eq_false_iff_not]
    exact ⟨⟨hc1, hc2⟩, hc3⟩
  have heval : tilingReduce ⟨2, 0⟩ 1 ⟨0, 1⟩ 1 0 = (0, true) := by
    simp only [tilingReduce, hfired, Bool.false_eq_true, if_false, reducePassZ,
      hstep1, hstep2, hstep3]
  exact ⟨heval, tilingReduce_break_in_fund ⟨2, 0⟩ 1 ⟨0, 1⟩ 1 0 0 heval⟩

end

noncomputable section

/-- Source local `alpha = Math.PI / p` of `generateTilingParams`. -/
def tAlpha (p : ℤ) : ℝ := Real.pi / p

/-- Source local `refDir = versor(alpha)`. -/
def refDir (p : ℤ) : ℂ := versor (tAlpha p)

/-- Source local `beta = Math.PI / q`. -/
def tBeta (q : ℤ) : ℝ := Real.pi / q

/-- Source local `cotq = 1 / Math.tan(beta)`. -/
def cotq (q : ℤ) : ℝ := 1 / Real.tan (tBeta q)

/-- Source local `tanp = refDir.y / refDir.x`. -/
def tanp (p : ℤ) : ℝ := (refDir p).im / (refDir p).re

/-- Source local `rSide = sqrt((cotq - tanp) / (cotq + tanp))`. -/
def rSide (p q : ℤ) : ℝ := Real.sqrt ((cotq q - tanp p) / (cotq q + tanp p))

/-- Source local `cenX = .5 * (rSide² + 1) / (rSide * refDir.x)`. -/
def cenX (p q : ℤ) : ℝ :=
  0.5 * (rSide p q * rSide p q + 1) / (rSide p q * (refDir p).re)

/-- Source local `invRadSq = cenX² + (-2*refDir.x*cenX + rSide) * rSide`. -/
def invRadSq (p q : ℤ) : ℝ :=
  cenX p q * cenX p q + (-2 * (refDir p).re * cenX p q + rSide p q) * rSide p q

/-- Source local `invCen = Complex(cenX, 0)`. -/
def invCenD (p q : ℤ) : ℂ := ⟨cenX p q, 0⟩

/-- Source local `invRad = sqrt(invRadSq)`. -/
def invRadD (p q : ℤ) : ℝ := Real.sqrt (invRadSq p q)

/-- Source `V1 = dir.mulRe(d_edge)` where `dir = (invCen - V0).getNormalized`
and `d_edge = |invCen - V0| - invRad` (with `V0 = 0`). -/
def V1D (p q : ℤ) : ℂ :=
  (Complex.abs (invCenD p q - 0) - invRadD p q) • getNormalized (invCenD p q - 0)

/-- Source `V2 = intersectCircleWithOriginLine(invCen, invRad, refDir)`. -/
def V2D (p q : ℤ) : Option ℂ :=
  intersectCircleWithOriginLine (invCenD p q) (invRadD p q) (refDir p)

/-- The fields of the source `TilingDescriptor` covered by the verified
fragment of `generateTilingParams` (math.js lines 129-157): the inversion
circle, the reflection normal, the Schläfli/thickness inputs and the
fundamental-triangle vertices.  The thick-edge, enlarged-circle and ornament
fields derived from these are outside this fragment. -/
structure TilingParams where
  invCen : ℂ
  invRad : ℝ
  refNrm : ℂ
  V0 : ℂ
  V1 : ℂ
  V2 : Option ℂ
  pValue : ℤ
  qValue : ℤ
  eThickness : ℝ

/-- Source `generateTilingParams(p, q, edgeThickness)`, restricted to the
fields above.  `V2` is an `Option` because `intersectCircleWithOriginLine`
can return no result. -/
def generateTilingParams (p q : ℤ) (edgeThickness : ℝ) : TilingParams :=
  { invCen := invCenD p q
    invRad := invRadD p q
    refNrm := ⟨(refDir p).im, -(refDir p).re⟩
    V0 := 0
    V1 := V1D p q
    V2 := V2D p q
    pValue := p
    qValue := q
    eThickness := edgeThickness }

/-- The failure signalled for an invalid Schläfli pair (the spec's
`InvalidTilingError`; in the source, `setValues` raises the UI error flag and
returns without computing anything). -/
inductive TilingError where
  | invalidTiling

/-- Source `setValues(p, q, edgeThickness)` of the settings menu: the only
entry point to the generator; it checks `(p-2)*(q-2) <= 4` and refuses before
any geometry construction, producing no descriptor. -/
def setValues (p q : ℤ) (edgeThickness : ℝ) : Except TilingError TilingParams :=
  if (p - 2) * (q - 2) ≤ 4 then Except.error TilingError.invalidTiling
  else Except.ok (generateTilingParams p q edgeThickness)

/-- Claim C1: for every integer pair with `(p-2)*(q-2) ≤ 4` and every edge
thickness, the generation pipeline fails with the explicit invalid-tiling
error before any geometry construction, returning no partial descriptor. -/
theorem setValues_invalid_rejects (p q : ℤ) (edgeThickness : ℝ)
    (h : (p - 2) * (q - 2) ≤ 4) :
    setValues p q edgeThickness = Except.error TilingError.invalidTiling := by
  simp only [setValues]
  rw [if_pos h]

/-- Claim C1 witness: the invalid pair `(3, 3)` is rejected. -/
theorem setValues_invalid_rejects_witness :
    ((3 : ℤ) - 2) * ((3 : ℤ) - 2) ≤ 4 ∧
      setValues 3 3 (1 / 50) = Except.error TilingError.invalidTiling :=
  ⟨by decide, setValues_invalid_rejects 3 3 (1 / 50) (by decide)⟩

end

noncomputable section

theorem refDir_re (p : ℤ) : (refDir p).re = Real.cos (tAlpha p) := rfl

theorem refDir_im (p : ℤ) : (refDir p).im = Real.sin (tAlpha p) := rfl

theorem tAlpha_pos (p : ℤ) (hp : 3 ≤ p) : 0 < tAlpha p :=
  div_pos Real.pi_pos (by exact_mod_cast lt_of_lt_of_le (by norm_num) hp)

theorem tAlpha_le (p : ℤ) (hp : 3 ≤ p) : tAlpha p ≤ Real.pi / 3 :=
  div_le_div_of_nonneg_left Real.pi_pos.le (by norm_num) (by exact_mod_cast hp)

theorem tAlpha_lt_pi_div_two (p : ℤ) (hp : 3 ≤ p) : tAlpha p < Real.pi / 2 :=
  lt_of_le_of_lt (tAlpha_le p hp) (by linarith [Real.pi_pos])

theorem cos_tAlpha_pos (p : ℤ) (hp : 3 ≤ p) : 0 < Real.cos (tAlpha p) :=
  Real.cos_pos_of_mem_Ioo
    ⟨by linarith [Real.pi_pos, tAlpha_pos p hp], tAlpha_lt_pi_div_two p hp⟩

theorem sin_tAlpha_pos (p : ℤ) (hp : 3 ≤ p) : 0 < Real.sin (tAlpha p) :=
  Real.sin_pos_of_pos_of_lt_pi (tAlpha_pos p hp)
    (by linarith [Real.pi_pos, tAlpha_lt_pi_div_two p hp])

theorem cos_tAlpha_ge_half (p : ℤ) (hp : 3 ≤ p) :
    1 / 2 ≤ Real.cos (tAlpha p) := by
  have h := Real.cos_le_cos_of_nonneg_of_le_pi (le_of_lt (tAlpha_pos p hp))
    (by linarith [Real.pi_pos]) (tAlpha_le p hp)
  rwa [Real.cos_pi_div_three] at h

theorem tanp_eq_tan (p : ℤ) : tanp p = Real.tan (tAlpha p) := by
  rw [tanp, refDir_re, refDir_im, Real.tan_eq_sin_div_cos]

theorem tanp_pos (p : ℤ) (hp : 3 ≤ p) : 0 < tanp p := by
  rw [tanp_eq_tan]
  exact Real.tan_pos_of_pos_of_lt_pi_div_two (tAlpha_pos p hp)
    (tAlpha_lt_pi_div_two p hp)

theorem cotq_pos (q : ℤ) (hq : 3 ≤ q) : 0 < cotq q := by
  have := Real.tan_pos_of_pos_of_lt_pi_div_two (tAlpha_pos q hq)
    (tAlpha_lt_pi_div_two q hq)
  rw [cotq]
  have hEq : tBeta q = tAlpha q := rfl
  rw [hEq]
  positivity

theorem angle_sum_lt (p q : ℤ) (hp : 3 ≤ p) (hq : 3 ≤ q)
    (hpq : 4 < (p - 2) * (q - 2)) : tAlpha p + tBeta q < Real.pi / 2 := by
  have hp' : (3 : ℝ) ≤ (p : ℝ) := by exact_mod_cast hp
  have hq' : (3 : ℝ) ≤ (q : ℝ) := by exact_mod_cast hq
  have hpq' : (4 : ℝ) < ((p : ℝ) - 2) * ((q : ℝ) - 2) := by exact_mod_cast hpq
  have hpa : (0 : ℝ) < (p : ℝ) := by linarith
  have hqa : (0 : ℝ) < (q : ℝ) := by linarith
  have hπ := Real.pi_pos
  rw [tAlpha, tBeta, div_add_div _ _ (ne_of_gt hpa) (ne_of_gt hqa),
    div_lt_div_iff₀ (mul_pos hpa hqa) (by norm_num : (0 : ℝ) < 2)]
  nlinarith

theorem tanp_lt_cotq (p q : ℤ) (hp : 3 ≤ p) (hq : 3 ≤ q)
    (hpq : 4 < (p - 2) * (q - 2)) : tanp p < cotq q := by
  rw [tanp_eq_tan, cotq, one_div]
  have hEq : tBeta q = tAlpha q := rfl
  rw [hEq, ← Real.tan_pi_div_two_sub]
  exact Real.tan_lt_tan_of_nonneg_of_lt_pi_div_two (le_of_lt (tAlpha_pos p hp))
    (by linarith [tAlpha_pos q hq]) (by linarith [angle_sum_lt p q hp hq hpq])

theorem rSide_pos (p q : ℤ) (hp : 3 ≤ p) (hq : 3 ≤ q)
    (hpq : 4 < (p - 2) * (q - 2)) : 0 < rSide p q := by
  have h1 := tanp_lt_cotq p q hp hq hpq
  have h2 := tanp_pos p hp
  exact Real.sqrt_pos.mpr (div_pos (by linarith) (by linarith))

theorem rSide_lt_one (p q : ℤ) (hp : 3 ≤ p) (hq : 3 ≤ q)
    (hpq : 4 < (p - 2) * (q - 2)) : rSide p q < 1 := by
  have h1 := tanp_lt_cotq p q hp hq hpq
  have h2 := tanp_pos p hp
  rw [rSide, Real.sqrt_lt' one_pos]
  rw [div_lt_iff₀ (by linarith)]
  nlinarith

end

noncomputable section

theorem cenX_mul_eq (p q : ℤ) (hp : 3 ≤ p) (hq : 3 ≤ q)
    (hpq : 4 < (p - 2) * (q - 2)) :
    cenX p q * (rSide p q * (refDir p).re) =
      0.5 * (rSide p q * rSide p q + 1) := by
  have hr := rSide_pos p q hp hq hpq
  have hc : (0 : ℝ) < (refDir p).re := by
    rw [refDir_re]
    exact cos_tAlpha_pos p hp
  simp only [cenX]
  exact div_mul_cancel₀ _ (ne_of_gt (mul_pos hr hc))

theorem one_lt_cenX_mul_cos (p q : ℤ) (hp : 3 ≤ p) (hq : 3 ≤ q)
    (hpq : 4 < (p - 2) * (q - 2)) :
    1 < cenX p q * Real.cos (tAlpha p) := by
  have hr := rSide_pos p q hp hq hpq
  have hr1 := rSide_lt_one p q hp hq hpq
  have hcen := cenX_mul_eq p q hp hq hpq
  rw [refDir_re] at hcen
  have h2r : 2 * rSide p q < rSide p q * rSide p q + 1 := by
    nlinarith [mul_self_pos.mpr (sub_ne_zero.mpr (ne_of_lt hr1))]
  have h3 : (cenX p q * Real.cos (tAlpha p) - 1) * rSide p q =
      0.5 * (rSide p q * rSide p q + 1) - rSide p q := by
    linear_combination hcen
  nlinarith [h3, hr, h2r]

theorem one_lt_cenX (p q : ℤ) (hp : 3 ≤ p) (hq : 3 ≤ q)
    (hpq : 4 < (p - 2) * (q - 2)) : 1 < cenX p q := by
  have hu := one_lt_cenX_mul_cos p q hp hq hpq
  have hc := cos_tAlpha_pos p hp
  have hc1 := Real.cos_le_one (tAlpha p)
  have hcx : 0 < cenX p q := by nlinarith
  nlinarith [mul_le_mul_of_nonneg_left hc1 (le_of_lt hcx)]

theorem invRadSq_eq (p q : ℤ) (hp : 3 ≤ p) (hq : 3 ≤ q)
    (hpq : 4 < (p - 2) * (q - 2)) :
    invRadSq p q = cenX p q * cenX p q - 1 := by
  have hcen := cenX_mul_eq p q hp hq hpq
  simp only [invRadSq]
  linear_combination (-2 : ℝ) * hcen

theorem invRadSq_nonneg (p q : ℤ) (hp : 3 ≤ p) (hq : 3 ≤ q)
    (hpq : 4 < (p - 2) * (q - 2)) : 0 ≤ invRadSq p q := by
  rw [invRadSq_eq p q hp hq hpq]
  nlinarith [one_lt_cenX p q hp hq hpq]

theorem invRadD_lt_cenX (p q : ℤ) (hp : 3 ≤ p) (hq : 3 ≤ q)
    (hpq : 4 < (p - 2) * (q - 2)) : invRadD p q < cenX p q := by
  have hcx := one_lt_cenX p q hp hq hpq
  rw [invRadD, invRadSq_eq p q hp hq hpq, Real.sqrt_lt' (by linarith)]
  nlinarith

theorem cenX_sub_invRadD_lt_one (p q : ℤ) (hp : 3 ≤ p) (hq : 3 ≤ q)
    (hpq : 4 < (p - 2) * (q - 2)) : cenX p q - invRadD p q < 1 := by
  have hcx := one_lt_cenX p q hp hq hpq
  have h : cenX p q - 1 < invRadD p q := by
    rw [invRadD, invRadSq_eq p q hp hq hpq,
      show cenX p q * cenX p q - 1 = (cenX p q - 1) * (cenX p q + 1) by ring,
      Real.lt_sqrt (by linarith)]
    nlinarith
  linarith

end

noncomputable section

theorem abs_V1D (p q : ℤ) (hp : 3 ≤ p) (hq : 3 ≤ q)
    (hpq : 4 < (p - 2) * (q - 2)) :
    Complex.abs (V1D p q) = cenX p q - invRadD p q := by
  have hcx : 0 < cenX p q := by linarith [one_lt_cenX p q hp hq hpq]
  have hd : 0 < cenX p q - invRadD p q := by
    linarith [invRadD_lt_cenX p q hp hq hpq]
  have hmk : invCenD p q - 0 = ((cenX p q : ℝ) : ℂ) := by
    simp [invCenD, Complex.ext_iff]
  have habs : Complex.abs ((cenX p q : ℝ) : ℂ) = cenX p q := by
    rw [Complex.abs_ofReal, abs_of_pos hcx]
  rw [V1D, hmk, habs, getNormalized, habs, smul_smul, Complex.real_smul, map_mul,
    Complex.abs_ofReal, habs]
  rw [abs_of_pos (mul_pos hd (by positivity))]
  field_simp

theorem abs_V1D_lt_one (p q : ℤ) (hp : 3 ≤ p) (hq : 3 ≤ q)
    (hpq : 4 < (p - 2) * (q - 2)) : Complex.abs (V1D p q) < 1 := by
  rw [abs_V1D p q hp hq hpq]
  exact cenX_sub_invRadD_lt_one p q hp hq hpq

end

noncomputable section

theorem V2D_some_abs_lt_one (p q : ℤ) (hp : 3 ≤ p) (hq : 3 ≤ q)
    (hpq : 4 < (p - 2) * (q - 2)) :
    ∃ v2, V2D p q = some v2 ∧ Complex.abs v2 < 1 := by
  have hc : 0 < Real.cos (tAlpha p) := cos_tAlpha_pos p hp
  have hchalf := cos_tAlpha_ge_half p hp
  have hpyth := Real.sin_sq_add_cos_sq (tAlpha p)
  have hu := one_lt_cenX_mul_cos p q hp hq hpq
  have hcx : 0 < cenX p q := by linarith [one_lt_cenX p q hp hq hpq]
  have hbr : |-(refDir p).re| > 1e-12 := by
    rw [refDir_re, abs_neg, abs_of_pos hc]
    linarith
  have hsl : olSlope (refDir p) = Real.sin (tAlpha p) / Real.cos (tAlpha p) := by
    rw [olSlope, refDir_re, refDir_im, neg_div_neg_eq]
  have hA : olA (refDir p) = 1 / (Real.cos (tAlpha p) * Real.cos (tAlpha p)) := by
    rw [olA, hsl]
    field_simp
    linear_combination hpyth
  have hB : olB (invCenD p q) (refDir p) = -2 * cenX p q := by
    simp only [olB, invCenD]
    ring
  have hC : olC (invCenD p q) (invRadD p q) = 1 := by
    simp only [olC, invCenD]
    rw [show invRadD p q * invRadD p q = invRadSq p q from
      Real.mul_self_sqrt (invRadSq_nonneg p q hp hq hpq),
      invRadSq_eq p q hp hq hpq]
    ring
  have hdisc_eq : olDisc (invCenD p q) (invRadD p q) (refDir p) =
      4 * (cenX p q * cenX p q) -
        4 / (Real.cos (tAlpha p) * Real.cos (tAlpha p)) := by
    rw [olDisc, hA, hB, hC]
    ring
  have hdisc_pos : 0 < olDisc (invCenD p q) (invRadD p q) (refDir p) := by
    rw [hdisc_eq, sub_pos, div_lt_iff₀ (by positivity)]
    nlinarith
  have hsd_pos : 0 < Real.sqrt (olDisc (invCenD p q) (invRadD p q) (refDir p)) :=
    Real.sqrt_pos.mpr hdisc_pos
  have hsd_lt : Real.sqrt (olDisc (invCenD p q) (invRadD p q) (refDir p)) <
      2 * cenX p q := by
    rw [Real.sqrt_lt' (by linarith)]
    rw [hdisc_eq]
    have : 0 < 4 / (Real.cos (tAlpha p) * Real.cos (tAlpha p)) := by positivity
    nlinarith
  have hx1 : olX1 (invCenD p q) (invRadD p q) (refDir p) =
      (2 * cenX p q + Real.sqrt (olDisc (invCenD p q) (invRadD p q) (refDir p)))
        * (Real.cos (tAlpha p) * Real.cos (tAlpha p)) / 2 := by
    rw [olX1, hB, hA]
    field_simp
  have hx2 : olX2 (invCenD p q) (invRadD p q) (refDir p) =
      (2 * cenX p q - Real.sqrt (olDisc (invCenD p q) (invRadD p q) (refDir p)))
        * (Real.cos (tAlpha p) * Real.cos (tAlpha p)) / 2 := by
    rw [olX2, hB, hA]
    field_simp
  have hx2_pos : 0 < olX2 (invCenD p q) (invRadD p q) (refDir p) := by
    rw [hx2]
    exact div_pos (mul_pos (by linarith) (by positivity)) two_pos
  have hx12 : olX2 (invCenD p q) (invRadD p q) (refDir p) <
      olX1 (invCenD p q) (invRadD p q) (refDir p) := by
    rw [hx1, hx2]
    have hcc : 0 < Real.cos (tAlpha p) * Real.cos (tAlpha p) := by positivity
    nlinarith
  have hcsd : 2 * (cenX p q * Real.cos (tAlpha p) - 1) < Real.cos (tAlpha p) *
      Real.sqrt (olDisc (invCenD p q) (invRadD p q) (refDir p)) := by
    have hmul : Real.cos (tAlpha p) *
        Real.sqrt (olDisc (invCenD p q) (invRadD p q) (refDir p)) =
        Real.sqrt (Real.cos (tAlpha p) * Real.cos (tAlpha p) *
          olDisc (invCenD p q) (invRadD p q) (refDir p)) := by
      rw [Real.sqrt_mul (mul_self_nonneg _), Real.sqrt_mul_self hc.le]
    have hval : Real.cos (tAlpha p) * Real.cos (tAlpha p) *
        olDisc (invCenD p q) (invRadD p q) (refDir p) =
        4 * (cenX p q * Real.cos (tAlpha p)) *
          (cenX p q * Real.cos (tAlpha p)) - 4 := by
      rw [hdisc_eq]
      field_simp
      ring
    rw [hmul, hval]
    rw [Real.lt_sqrt (by linarith)]
    nlinarith
  have hx2c : olX2 (invCenD p q) (invRadD p q) (refDir p) <
      Real.cos (tAlpha p) := by
    have h5 : Real.cos (tAlpha p) * (2 * (cenX p q * Real.cos (tAlpha p) - 1)) <
        Real.cos (tAlpha p) * (Real.cos (tAlpha p) *
          Real.sqrt (olDisc (invCenD p q) (invRadD p q) (refDir p))) :=
      mul_lt_mul_of_pos_left hcsd hc
    rw [hx2]
    nlinarith
  have hns1 : Complex.normSq (olCand1 (invCenD p q) (invRadD p q) (refDir p)) =
      olX1 (invCenD p q) (invRadD p q) (refDir p) *
        olX1 (invCenD p q) (invRadD p q) (refDir p) * olA (refDir p) := by
    simp only [olCand1, Complex.normSq_mk, olA]
    ring
  have hns2 : Complex.normSq (olCand2 (invCenD p q) (invRadD p q) (refDir p)) =
      olX2 (invCenD p q) (invRadD p q) (refDir p) *
        olX2 (invCenD p q) (invRadD p q) (refDir p) * olA (refDir p) := by
    simp only [olCand2, Complex.normSq_mk, olA]
    ring
  have habs21 : Complex.abs (olCand2 (invCenD p q) (invRadD p q) (refDir p)) <
      Complex.abs (olCand1 (invCenD p q) (invRadD p q) (refDir p)) := by
    rw [Complex.abs_apply, Complex.abs_apply]
    apply Real.sqrt_lt_sqrt (Complex.normSq_nonneg _)
    rw [hns1, hns2]
    exact mul_lt_mul_of_pos_right
      (mul_self_lt_mul_self hx2_pos.le hx12) (olA_pos (refDir p))
  have habs2 : Complex.abs (olCand2 (invCenD p q) (invRadD p q) (refDir p)) < 1 := by
    rw [Complex.abs_apply, Real.sqrt_lt' one_pos, one_pow]
    rw [hns2, hA, mul_one_div, div_lt_one (by positivity)]
    exact mul_self_lt_mul_self hx2_pos.le hx2c
  refine ⟨olCand2 (invCenD p q) (invRadD p q) (refDir p), ?_, habs2⟩
  rw [V2D]
  simp only [intersectCircleWithOriginLine]
  rw [if_pos hbr, if_neg (not_lt.mpr hdisc_pos.le), if_neg (not_lt.mpr habs21.le)]

end

noncomputable section

/-- Claim C5: for all integers `p, q ≥ 3` with `(p-2)(q-2) > 4` and a
positive edge thickness, the generation pipeline succeeds and the descriptor
has `V0 = (0,0)` and `V1`, `V2` strictly inside the unit disk (`V2` in
particular exists: the circle-line intersection does not fail). -/
theorem generateTilingParams_valid (p q : ℤ) (edgeThickness : ℝ) (hp : 3 ≤ p)
    (hq : 3 ≤ q) (hpq : 4 < (p - 2) * (q - 2)) (ht : 0 < edgeThickness) :
    ∃ d : TilingParams, setValues p q edgeThickness = Except.ok d ∧
      d.V0 = 0 ∧ Complex.abs d.V1 < 1 ∧
      ∃ v2, d.V2 = some v2 ∧ Complex.abs v2 < 1 := by
  refine ⟨generateTilingParams p q edgeThickness, ?_, rfl, ?_, ?_⟩
  · simp only [setValues]
    rw [if_neg (not_le.mpr hpq)]
  · exact abs_V1D_lt_one p q hp hq hpq
  · exact V2D_some_abs_lt_one p q hp hq hpq

/-- Claim C5 witness: the valid pair `(4, 5)` with thickness `1/50` (the
Hermann-grid preset up to thickness) yields a descriptor with the vertex
invariants. -/
theorem generateTilingParams_valid_witness :
    (3 : ℤ) ≤ 4 ∧ (3 : ℤ) ≤ 5 ∧ (4 : ℤ) < ((4 : ℤ) - 2) * ((5 : ℤ) - 2) ∧
      (0 : ℝ) < 1 / 50 ∧
      ∃ d : TilingParams, setValues 4 5 (1 / 50) = Except.ok d ∧
        d.V0 = 0 ∧ Complex.abs d.V1 < 1 ∧
        ∃ v2, d.V2 = some v2 ∧ Complex.abs v2 < 1 :=
  ⟨by decide, by decide, by decide, by norm_num,
    generateTilingParams_valid 4 5 (1 / 50) (by decide) (by decide) (by decide)
      (by norm_num)⟩

end
